import Mathlib

/-!
Verification of the MOCHI orchestrator core against its specification.

The Go sources are shallowly embedded: Go strings are modelled as Lean
strings (sequences of runes); where the Go code measures or slices by
bytes, an explicit UTF-8 byte-size function is used.  External processes
(git, the agent CLIs) are modelled as oracle functions passed in as
parameters.  Every definition mirrors a named function of the repository;
definitions whose doc comment says so follow the specification text
instead, for refinement comparisons.
-/

namespace Mochi

/-! ## String helpers shared by several Go files -/

/-- Models Go `unicode.IsSpace` restricted to the Basic Latin and
Latin-1 blocks (all inputs appearing in this development): space, tab,
newline, vertical tab, form feed, carriage return, NEL and NBSP. -/
def goIsSpace (c : Char) : Bool :=
  c = ' ' || c = '\t' || c = '\n' || c.toNat = 0x0B || c.toNat = 0x0C ||
  c = '\r' || c.toNat = 0x85 || c.toNat = 0xA0

/-- Models Go `strings.TrimSpace`: remove leading and trailing
whitespace runes. -/
def goTrimSpace (s : String) : String :=
  ⟨((s.data.dropWhile goIsSpace).reverse.dropWhile goIsSpace).reverse⟩

/-- Models Go `unicode.ToUpper` restricted to the Basic Latin and
Latin-1 blocks: ASCII a-z and the Latin-1 lowercase letters with a
simple -32 uppercase mapping. -/
def goToUpperChar (c : Char) : Char :=
  if 'a' ≤ c && c ≤ 'z' then Char.ofNat (c.toNat - 32)
  else if 0xE0 ≤ c.toNat && c.toNat ≤ 0xFE && c.toNat ≠ 0xF7 then
    Char.ofNat (c.toNat - 32)
  else c

/-- Models Go `strings.ToUpper` (rune-wise mapping). -/
def goToUpper (s : String) : String := ⟨s.data.map goToUpperChar⟩

/-- Models Go `unicode.ToLower` restricted to the Basic Latin and
Latin-1 blocks. -/
def goToLowerChar (c : Char) : Char :=
  if 'A' ≤ c && c ≤ 'Z' then Char.ofNat (c.toNat + 32)
  else if 0xC0 ≤ c.toNat && c.toNat ≤ 0xDE && c.toNat ≠ 0xD7 then
    Char.ofNat (c.toNat + 32)
  else c

/-- Models Go `strings.ToLower` (rune-wise mapping). -/
def goToLower (s : String) : String := ⟨s.data.map goToLowerChar⟩

/-- UTF-8 encoded size in bytes of one rune. -/
def utf8Size (c : Char) : Nat :=
  if c.toNat < 0x80 then 1
  else if c.toNat < 0x800 then 2
  else if c.toNat < 0x10000 then 3
  else 4

/-- UTF-8 encoded size in bytes of a rune sequence: models Go `len(s)`
on a string. -/
def utf8Len (s : List Char) : Nat := (s.map utf8Size).sum

/-- Models the Go byte-slice `s[:n]` on a string whose cut point does
not split a UTF-8 rune: keep leading runes as long as they fit entirely
within the first `n` bytes. -/
def byteTake (n : Nat) : List Char → List Char
  | [] => []
  | c :: rest =>
    if utf8Size c ≤ n then c :: byteTake (n - utf8Size c) rest else []

/-- Models `strings.HasPrefix` (byte prefix; rune prefix coincides on
valid UTF-8). -/
def strStartsWith (s p : String) : Bool := p.data.isPrefixOf s.data

/-- Rune-indexed drop on strings. -/
def strDrop (s : String) (n : Nat) : String := ⟨s.data.drop n⟩

/-! ## Reviewer decision parsing (internal/reviewer, `parseDecision`) -/

/-- The reviewer verdict record (internal/reviewer `Decision`). -/
structure Decision where
  done : Bool
  feedback : String
  raw : String
deriving Repr, DecidableEq

/-- The line scan of `parseDecision`, one constructor per loop
iteration over `strings.Split(output, "\n")`.  A line whose upper-cased
trimmed form equals DONE yields the done verdict; one starting with
RETRY: yields a retry with the remainder after the colon trimmed
(the guard forces the first six runes to be ASCII, so the Go byte slice
`trimmed[6:]` is the rune drop); otherwise the scan continues.  An
exhausted scan defaults to a retry carrying the whole trimmed output. -/
def parseDecisionLines (output : String) : List String → Decision
  | [] => { done := false, feedback := goTrimSpace output, raw := output }
  | line :: rest =>
    let trimmed := goTrimSpace line
    let upper := goToUpper trimmed
    if upper = "DONE" then
      { done := true, feedback := "", raw := output }
    else if strStartsWith upper "RETRY:" then
      { done := false, feedback := goTrimSpace (strDrop trimmed 6), raw := output }
    else
      parseDecisionLines output rest

/-- Models `parseDecision` of internal/reviewer: scan the captured
output line by line for the first DONE or RETRY: line. -/
def parseDecision (output : String) : Decision :=
  parseDecisionLines output (output.splitOn "\n")

/-- Verdict of a single line, following the specification text: the
first line whose upper-cased trimmed form equals DONE gives done with
empty feedback; one starting with RETRY: gives not-done with the
remainder after the colon, trimmed. -/
def specLineVerdict (line : String) : Option (Bool × String) :=
  let t := goTrimSpace line
  let u := goToUpper t
  if u = "DONE" then some (true, "")
  else if strStartsWith u "RETRY:" then some (false, goTrimSpace (strDrop t 6))
  else none

/-- Decision parsing as the specification words it: find the first line
with a verdict; if none exists, default to not-done with feedback equal
to the whole raw output trimmed. -/
def specDecision (output : String) : Decision :=
  match (output.splitOn "\n").findSome? specLineVerdict with
  | some (d, fb) => { done := d, feedback := fb, raw := output }
  | none => { done := false, feedback := goTrimSpace output, raw := output }

theorem parseDecisionLines_eq_spec (output : String) (ls : List String) :
    parseDecisionLines output ls =
      (match ls.findSome? specLineVerdict with
       | some (d, fb) => { done := d, feedback := fb, raw := output }
       | none =>
         { done := false, feedback := goTrimSpace output, raw := output }) := by
  induction ls with
  | nil => simp [parseDecisionLines, List.findSome?]
  | cons l rest ih =>
    simp only [parseDecisionLines, List.findSome?, specLineVerdict]
    split
    · rfl
    · split
      · rfl
      · exact ih

/-- C1: for every captured reviewer output, the parsed Decision is the
one the specification describes: first DONE line wins with empty
feedback, else first RETRY: line wins with the trimmed remainder after
the colon, else not-done with the whole trimmed raw output. -/
theorem mochi_c1_parseDecision_follows_spec (output : String) :
    parseDecision output = specDecision output := by
  unfold parseDecision specDecision
  exact parseDecisionLines_eq_spec output (output.splitOn "\n")

/-! ## Task parser (internal/parser/parser.go) -/

/-- The whitespace class of the RE2 regular expressions used by the
parser patterns: tab, newline, form feed, carriage return, space. -/
def reSpace (c : Char) : Bool :=
  c = '\t' || c = '\n' || c.toNat = 0x0C || c = '\r' || c = ' '

/-- The digit class of RE2 regular expressions. -/
def reDigit (c : Char) : Bool := '0' ≤ c && c ≤ '9'

/-- Models Go `unicode.IsLetter` restricted to the Basic Latin and
Latin-1 blocks, whose letters are A-Z, a-z, ªµº, À-Ö, Ø-ö and ø-ÿ. -/
def goIsLetter (c : Char) : Bool :=
  ('a' ≤ c && c ≤ 'z') || ('A' ≤ c && c ≤ 'Z') ||
  c.toNat = 0xAA || c.toNat = 0xB5 || c.toNat = 0xBA ||
  (0xC0 ≤ c.toNat && c.toNat ≤ 0xD6) ||
  (0xD8 ≤ c.toNat && c.toNat ≤ 0xF6) ||
  (0xF8 ≤ c.toNat && c.toNat ≤ 0xFF)

/-- Models Go `unicode.IsDigit` restricted to the Basic Latin and
Latin-1 blocks, whose only decimal digits are 0-9. -/
def goIsDigit (c : Char) : Bool := '0' ≤ c && c ≤ '9'

/-- One Task record as produced by the parser. -/
structure Task where
  title : String
  description : String
  slug : String
  model : String
deriving Repr, DecidableEq

/-! ### Bracket annotations: regexes of shape open-bracket key colon
capture close-bracket, like the model and title item markers -/

/-- Match of one bracket-annotation regex at the head of the input:
the key (for example the seven runes of the model-annotation opener),
then one or more runes other than the closing bracket (captured), then
the closing bracket.  Returns the capture and the rest after the match. -/
def annMatchAt (key : List Char) (s : List Char) : Option (List Char × List Char) :=
  if key.isPrefixOf s then
    let after := s.drop key.length
    let cap := after.takeWhile (fun c => c ≠ ']')
    match after.drop cap.length with
    | ']' :: tail => if cap.isEmpty then none else some (cap, tail)
    | _ => none
  else none

/-- Models `FindStringSubmatch` of a bracket-annotation regex: the
capture of the leftmost match, scanning match positions left to right. -/
def annFind (key : List Char) : List Char → Option (List Char)
  | [] => none
  | c :: rest =>
    match annMatchAt key (c :: rest) with
    | some (cap, _) => some cap
    | none => annFind key rest

/-- Models `ReplaceAllString` with the empty replacement for a
bracket-annotation regex: delete every leftmost non-overlapping match.
The fuel argument (always called with the input length, which bounds
the number of scan steps) only makes the recursion structural. -/
def annRemoveAllFuel (key : List Char) : Nat → List Char → List Char
  | 0, s => s
  | _ + 1, [] => []
  | fuel + 1, c :: rest =>
    match annMatchAt key (c :: rest) with
    | some (_, tail) => annRemoveAllFuel key fuel tail
    | none => c :: annRemoveAllFuel key fuel rest

/-- Delete every match of a bracket-annotation regex. -/
def annRemoveAll (key : List Char) (s : List Char) : List Char :=
  annRemoveAllFuel key s.length s

/-- The opener of the model annotation regex. -/
def modelKey : List Char := "[model:".data

/-- The opener of the title annotation regex. -/
def titleKey : List Char := "[title:".data

/-! ### Slugification (`toSlug`) -/

/-- Models `strings.TrimRight(s, "-")`: drop trailing dashes. -/
def trimRightDash : List Char → List Char
  | [] => []
  | c :: rest =>
    let r := trimRightDash rest
    if r.isEmpty && c = '-' then [] else c :: r

/-- The rune loop of `toSlug`: write letters and digits; for any other
rune write a single dash, but only when the builder is nonempty and the
previous written rune was not already a dash. -/
def slugBuild : List Char → Bool → List Char → List Char
  | [], _, acc => acc
  | c :: rest, prevDash, acc =>
    if goIsLetter c || goIsDigit c then slugBuild rest false (acc ++ [c])
    else if !prevDash && !acc.isEmpty then slugBuild rest true (acc ++ ['-'])
    else slugBuild rest prevDash acc

/-- Models `toSlug` of internal/parser: lowercase, collapse runs of
non-letter-digit runes to single dashes, trim trailing dashes, then
cut to at most 100 bytes and trim trailing dashes again. -/
def toSlugChars (title : List Char) : List Char :=
  let res := trimRightDash (slugBuild (title.map goToLowerChar) false [])
  if utf8Len res > 100 then trimRightDash (byteTake 100 res) else res

/-- String-level wrapper of the slugifier. -/
def toSlug (s : String) : String := ⟨toSlugChars s.data⟩

/-- Models `strings.TrimPrefix`. -/
def strTrimPrefix (s p : String) : String :=
  if strStartsWith s p then ⟨s.data.drop p.data.length⟩ else s

/-- Models `extractTaskFromLine` of internal/parser: pull the model and
title annotations out of the item text, preferring the explicit title,
and derive the slug. -/
def extractTaskFromLine (title0 : String) : Task :=
  let p1 : String × String :=
    match annFind modelKey title0.data with
    | some m => (goTrimSpace ⟨m⟩, goTrimSpace ⟨annRemoveAll modelKey title0.data⟩)
    | none => ("", title0)
  let model := p1.1
  let title1 := p1.2
  let p2 : String × String :=
    match annFind titleKey title1.data with
    | some m => (goTrimSpace ⟨m⟩, goTrimSpace ⟨annRemoveAll titleKey title1.data⟩)
    | none => ("", title1)
  let explicitTitle := p2.1
  let title2 := p2.2
  let title := if explicitTitle ≠ "" then explicitTitle else title2
  { title := title, description := "", slug := toSlug title, model := model }

/-! ### Item-line patterns -/

/-- Match of the bullet pattern: optional leading whitespace, a dash or
star, then at least one whitespace rune. -/
def bulletMatch (line : String) : Bool :=
  match line.data.dropWhile reSpace with
  | c :: rest => (c = '-' || c = '*') && (match rest with
    | d :: _ => reSpace d
    | [] => false)
  | [] => false

/-- Removal of the (anchored, maximal) bullet-pattern match. -/
def bulletStrip (line : String) : String :=
  match line.data.dropWhile reSpace with
  | _ :: rest => ⟨rest.dropWhile reSpace⟩
  | [] => line

/-- Match of the checkbox pattern: the bullet pattern, then an opening
square bracket, a space or x or X (the captured marker), the closing
bracket, then at least one whitespace rune.  Returns the marker and the
text after the match. -/
def checkboxParse (line : String) : Option (Char × List Char) :=
  match line.data.dropWhile reSpace with
  | c :: rest =>
    if c = '-' || c = '*' then
      match rest with
      | d :: _ =>
        if reSpace d then
          match rest.dropWhile reSpace with
          | '[' :: m :: ']' :: tail =>
            if m = ' ' || m = 'x' || m = 'X' then
              match tail with
              | e :: _ =>
                if reSpace e then some (m, tail.dropWhile reSpace) else none
              | [] => none
            else none
          | _ => none
        else none
      | [] => none
    else none
  | [] => none

/-- Match of the numbered pattern: optional whitespace, one or more
digits, a period or closing parenthesis, then at least one whitespace
rune.  Returns the text after the match. -/
def numberedParse (line : String) : Option (List Char) :=
  let body := line.data.dropWhile reSpace
  let digits := body.takeWhile reDigit
  if digits.isEmpty then none
  else
    match body.drop digits.length with
    | p :: tail =>
      if p = '.' || p = ')' then
        match tail with
        | e :: _ => if reSpace e then some (tail.dropWhile reSpace) else none
        | [] => none
      else none
    | [] => none

/-! ### Section headings -/

/-- The section names recognized by the task-section regex, lowercase. -/
def sectionKeywords : List String :=
  ["tasks", "task", "todo", "to-do", "action items", "work items",
   "checklist", "steps"]

/-- Models the case-insensitive task-section regex applied to the
trimmed line: two hash marks, whitespace, then one of the recognized
names up to the end of the line. -/
def isTasksHeading (trimmed : String) : Bool :=
  match trimmed.data with
  | '#' :: '#' :: rest =>
    let ws := rest.takeWhile reSpace
    let body := rest.dropWhile reSpace
    !ws.isEmpty && sectionKeywords.contains (goToLower ⟨body⟩)
  | _ => false

/-- The tasks-mode switch computed at a heading line: the regex match,
or a case-insensitive comparison of the text after the heading marker
with the word tasks. -/
def headingEntersTasks (trimmed : String) : Bool :=
  isTasksHeading trimmed || goToLower (strTrimPrefix trimmed "## ") = "tasks"

/-! ### Strategy 1: structured section scan (`parseStructuredTasks`) -/

/-- Scanner state of the structured section scan. -/
structure StructState where
  tasks : List Task
  current : Option Task
  inSection : Bool
deriving Repr, DecidableEq

/-- Appending one continuation line to a task description: a newline
separator is inserted only when the description is nonempty. -/
def descAppend (t : Task) (line : String) : Task :=
  { t with description :=
      if t.description = "" then line else t.description ++ "\n" ++ line }

/-- One line of the structured section scan, mirroring the loop body of
`parseStructuredTasks`: headings flush the current task and toggle
tasks mode; inside tasks mode, checkbox, bullet and numbered item lines
start a new task (a checked checkbox only flushes); every other line is
appended to the current description when a task is in progress. -/
def structStep (st : StructState) (line : String) : StructState :=
  let trimmed := goTrimSpace line
  if strStartsWith trimmed "## " then
    { tasks := st.tasks ++ st.current.toList, current := none,
      inSection := headingEntersTasks trimmed }
  else if !st.inSection then st
  else
    match checkboxParse line with
    | some (marker, stripped) =>
      if marker = 'x' || marker = 'X' then
        { tasks := st.tasks ++ st.current.toList, current := none,
          inSection := st.inSection }
      else
        { tasks := st.tasks ++ st.current.toList,
          current := some (extractTaskFromLine (goTrimSpace ⟨stripped⟩)),
          inSection := st.inSection }
    | none =>
      if bulletMatch line then
        { tasks := st.tasks ++ st.current.toList,
          current := some (extractTaskFromLine (goTrimSpace (bulletStrip line))),
          inSection := st.inSection }
      else
        match numberedParse line with
        | some stripped =>
          { tasks := st.tasks ++ st.current.toList,
            current := some (extractTaskFromLine (goTrimSpace ⟨stripped⟩)),
            inSection := st.inSection }
        | none =>
          match st.current with
          | some t => { st with current := some (descAppend t line) }
          | none => st

/-- Models `parseStructuredTasks` on the file split into lines. -/
def parseStructuredTasks (lines : List String) : List Task :=
  let st := lines.foldl structStep { tasks := [], current := none, inSection := false }
  st.tasks ++ st.current.toList

/-! ### Strategy 2: global checkbox scan (`parseCheckboxTasks`) -/

/-- Scanner state of the global checkbox scan. -/
structure CbState where
  tasks : List Task
  current : Option Task
deriving Repr, DecidableEq

/-- One line of the global checkbox scan, mirroring the loop body of
`parseCheckboxTasks`: checkbox lines start (or, when checked, only
flush) a task; with a task in progress, a nonblank line not starting
with a hash mark extends the description, a blank line terminates the
task, and a hash line is ignored. -/
def cbStep (st : CbState) (line : String) : CbState :=
  match checkboxParse line with
  | some (marker, stripped) =>
    if marker = 'x' || marker = 'X' then
      { tasks := st.tasks ++ st.current.toList, current := none }
    else
      { tasks := st.tasks ++ st.current.toList,
        current := some (extractTaskFromLine (goTrimSpace ⟨stripped⟩)) }
  | none =>
    match st.current with
    | some t =>
      let trimmed := goTrimSpace line
      if trimmed ≠ "" && !(strStartsWith trimmed "#") then
        { st with current := some (descAppend t line) }
      else if trimmed = "" then
        { tasks := st.tasks ++ [t], current := none }
      else st
    | none => st

/-- Models `parseCheckboxTasks` on the file split into lines. -/
def parseCheckboxTasks (lines : List String) : List Task :=
  let st := lines.foldl cbStep { tasks := [], current := none }
  st.tasks ++ st.current.toList

/-! ### The slug language of the specification

The pattern from the spec is the anchored regex of one or more
lowercase-alphanumeric runs separated by single dashes.  It is
transliterated as the evident two-state automaton: `slugRun` accepts
from the state just after an alphanumeric, `slugDash` from the state
just after a separating dash. -/

/-- The character class of the slug pattern. -/
def isSlugChar (c : Char) : Bool := ('a' ≤ c && c ≤ 'z') || ('0' ≤ c && c ≤ '9')

mutual

/-- Acceptance from the automaton state after an alphanumeric rune. -/
def slugRun : List Char → Bool
  | [] => true
  | c :: rest =>
    if isSlugChar c then slugRun rest
    else if c = '-' then slugDash rest
    else false

/-- Acceptance from the automaton state after a separating dash. -/
def slugDash : List Char → Bool
  | [] => false
  | c :: rest => if isSlugChar c then slugRun rest else false

end

/-- Full match of the slug pattern of the specification. -/
def slugMatches : List Char → Bool
  | [] => false
  | c :: rest => isSlugChar c && slugRun rest

theorem isSlugChar_ne_dash {c : Char} (h : isSlugChar c = true) : c ≠ '-' := by
  intro he
  subst he
  exact absurd h (by decide)

theorem slug_append_char {c : Char} (hc : isSlugChar c = true) :
    ∀ s : List Char,
      (slugRun s = true → slugRun (s ++ [c]) = true) ∧
      (slugDash s = true → slugDash (s ++ [c]) = true) := by
  intro s
  induction s with
  | nil =>
    refine ⟨fun _ => ?_, fun h => absurd h (by simp [slugDash])⟩
    simp [slugRun, hc]
  | cons d rest ih =>
    constructor
    · intro h
      rw [slugRun] at h
      rw [List.cons_append, slugRun]
      by_cases hd : isSlugChar d = true
      · simp only [hd, if_true] at h ⊢
        exact ih.1 h
      · simp only [hd] at h ⊢
        by_cases hdd : d = '-'
        · simp only [hdd, if_true, if_false] at h ⊢
          exact ih.2 h
        · simp [hdd] at h
    · intro h
      rw [slugDash] at h
      rw [List.cons_append, slugDash]
      by_cases hd : isSlugChar d = true
      · simp only [hd, if_true] at h ⊢
        exact ih.1 h
      · simp [hd] at h

theorem slug_append_dash_char {c : Char} (hc : isSlugChar c = true) :
    ∀ s : List Char,
      (slugRun s = true → slugRun (s ++ ['-', c]) = true) ∧
      (slugDash s = true → slugDash (s ++ ['-', c]) = true) := by
  intro s
  induction s with
  | nil =>
    refine ⟨fun _ => ?_, fun h => absurd h (by simp [slugDash])⟩
    simp [slugRun, slugDash, hc]
  | cons d rest ih =>
    constructor
    · intro h
      rw [slugRun] at h
      rw [List.cons_append, slugRun]
      by_cases hd : isSlugChar d = true
      · simp only [hd, if_true] at h ⊢
        exact ih.1 h
      · simp only [hd] at h ⊢
        by_cases hdd : d = '-'
        · simp only [hdd, if_true, if_false] at h ⊢
          exact ih.2 h
        · simp [hdd] at h
    · intro h
      rw [slugDash] at h
      rw [List.cons_append, slugDash]
      by_cases hd : isSlugChar d = true
      · simp only [hd, if_true] at h ⊢
        exact ih.1 h
      · simp [hd] at h

theorem slug_trimRightDash :
    ∀ s : List Char,
      (slugRun s = true → trimRightDash s = s) ∧
      (slugDash s = true → trimRightDash s = s ∧ s ≠ []) := by
  intro s
  induction s with
  | nil => exact ⟨fun _ => rfl, fun h => absurd h (by simp [slugDash])⟩
  | cons c rest ih =>
    constructor
    · intro h
      rw [slugRun] at h
      by_cases hc : isSlugChar c = true
      · simp only [hc, if_true] at h
        have hr := ih.1 h
        simp [trimRightDash, hr, isSlugChar_ne_dash hc]
      · simp only [hc] at h
        by_cases hdd : c = '-'
        · simp only [hdd, if_true, if_false] at h
          obtain ⟨hr, hne⟩ := ih.2 h
          simp [trimRightDash, hr, hne, hdd]
        · simp [hdd] at h
    · intro h
      rw [slugDash] at h
      by_cases hc : isSlugChar c = true
      · simp only [hc, if_true] at h
        have hr := ih.1 h
        refine ⟨?_, by simp⟩
        simp [trimRightDash, hr, isSlugChar_ne_dash hc]
      · simp [hc] at h

theorem slugMatches_trimRightDash {s : List Char} (h : slugMatches s = true) :
    trimRightDash s = s := by
  cases s with
  | nil => rfl
  | cons c rest =>
    rw [slugMatches, Bool.and_eq_true] at h
    simp [trimRightDash, (slug_trimRightDash rest).1 h.2, isSlugChar_ne_dash h.1]

theorem trimRightDash_append_dash (s : List Char) :
    trimRightDash (s ++ ['-']) = trimRightDash s := by
  induction s with
  | nil => rfl
  | cons c rest ih =>
    rw [List.cons_append]
    rw [trimRightDash, trimRightDash, ih]

theorem slug_take :
    ∀ (s : List Char) (n : Nat),
      (slugRun s = true →
        slugRun (s.take n) = true ∨
        ∃ p, s.take n = p ++ ['-'] ∧ slugRun p = true) ∧
      (slugDash s = true →
        slugDash (s.take n) = true ∨ s.take n = [] ∨
        ∃ p, s.take n = p ++ ['-'] ∧ slugDash p = true) := by
  intro s
  induction s with
  | nil =>
    intro n
    exact ⟨fun _ => Or.inl (by simp [slugRun]), fun h => absurd h (by simp [slugDash])⟩
  | cons c rest ih =>
    intro n
    cases n with
    | zero =>
      exact ⟨fun _ => Or.inl (by simp [slugRun]), fun _ => Or.inr (Or.inl (by simp))⟩
    | succ m =>
      constructor
      · intro h
        rw [slugRun] at h
        rw [List.take_succ_cons]
        by_cases hc : isSlugChar c = true
        · simp only [hc, if_true] at h
          rcases (ih m).1 h with hr | ⟨p, hp, hrp⟩
          · exact Or.inl (by rw [slugRun]; simp [hc, hr])
          · refine Or.inr ⟨c :: p, by rw [hp, List.cons_append], ?_⟩
            rw [slugRun]
            simp [hc, hrp]
        · simp only [hc] at h
          by_cases hdd : c = '-'
          · subst hdd
            simp only [if_true, if_false] at h
            have hnd : isSlugChar '-' = false := by decide
            rcases (ih m).2 h with hr | hnil | ⟨p, hp, hrp⟩
            · exact Or.inl (by rw [slugRun]; simp [hnd, hr])
            · refine Or.inr ⟨[], ?_, by simp [slugRun]⟩
              rw [hnil]
              rfl
            · refine Or.inr ⟨'-' :: p, by rw [hp, List.cons_append], ?_⟩
              rw [slugRun]
              simp [hnd, hrp]
          · simp [hdd] at h
      · intro h
        rw [slugDash] at h
        rw [List.take_succ_cons]
        by_cases hc : isSlugChar c = true
        · simp only [hc, if_true] at h
          rcases (ih m).1 h with hr | ⟨p, hp, hrp⟩
          · exact Or.inl (by rw [slugDash]; simp [hc, hr])
          · refine Or.inr (Or.inr ⟨c :: p, by rw [hp, List.cons_append], ?_⟩)
            rw [slugDash]
            simp [hc, hrp]
        · simp [hc] at h

theorem toNat_ofNat_valid (n : Nat) (h : n < 0xD800) : (Char.ofNat n).toNat = n := by
  have hv : Nat.isValidChar n := Or.inl h
  rw [Char.ofNat, dif_pos hv]
  simp [Char.ofNatAux, Char.toNat, UInt32.toNat, UInt32.ofNatCore]

theorem isSlugChar_iff (c : Char) :
    isSlugChar c = true ↔
      (97 ≤ c.toNat ∧ c.toNat ≤ 122) ∨ (48 ≤ c.toNat ∧ c.toNat ≤ 57) := by
  unfold isSlugChar
  rw [Bool.or_eq_true, Bool.and_eq_true, Bool.and_eq_true]
  simp only [decide_eq_true_eq]
  exact Iff.rfl

theorem goIsLetter_iff (c : Char) :
    goIsLetter c = true ↔
      ((((((((97 ≤ c.toNat ∧ c.toNat ≤ 122) ∨ (65 ≤ c.toNat ∧ c.toNat ≤ 90)) ∨
      c.toNat = 0xAA) ∨ c.toNat = 0xB5) ∨ c.toNat = 0xBA) ∨
      (0xC0 ≤ c.toNat ∧ c.toNat ≤ 0xD6)) ∨
      (0xD8 ≤ c.toNat ∧ c.toNat ≤ 0xF6)) ∨
      (0xF8 ≤ c.toNat ∧ c.toNat ≤ 0xFF)) := by
  unfold goIsLetter
  simp only [Bool.or_eq_true, Bool.and_eq_true, decide_eq_true_eq]
  exact Iff.rfl

theorem goIsDigit_iff (c : Char) :
    goIsDigit c = true ↔ 48 ≤ c.toNat ∧ c.toNat ≤ 57 := by
  unfold goIsDigit
  simp only [Bool.and_eq_true, decide_eq_true_eq]
  exact Iff.rfl

theorem goToLowerChar_toNat_of_upper {c : Char}
    (h : 65 ≤ c.toNat ∧ c.toNat ≤ 90) :
    (goToLowerChar c).toNat = c.toNat + 32 := by
  unfold goToLowerChar
  rw [if_pos]
  · exact toNat_ofNat_valid _ (by omega)
  · rw [Bool.and_eq_true]
    exact ⟨decide_eq_true h.1, decide_eq_true h.2⟩

theorem goToLowerChar_id_of_nonupper {c : Char}
    (hna : ¬(65 ≤ c.toNat ∧ c.toNat ≤ 90)) (hb : c.toNat < 0xC0) :
    goToLowerChar c = c := by
  unfold goToLowerChar
  rw [if_neg, if_neg]
  · intro hcon
    rw [Bool.and_eq_true, Bool.and_eq_true] at hcon
    have h1 := of_decide_eq_true hcon.1.1
    omega
  · intro hcon
    rw [Bool.and_eq_true] at hcon
    have h1 := of_decide_eq_true hcon.1
    have h2 := of_decide_eq_true hcon.2
    exact hna ⟨h1, h2⟩

/-- For an ASCII rune, the lowered rune is written by the slug loop
exactly when it is in the slug character class. -/
theorem ascii_lower_written_isSlugChar {c : Char} (h : c.toNat < 128)
    (hw : (goIsLetter (goToLowerChar c) || goIsDigit (goToLowerChar c)) = true) :
    isSlugChar (goToLowerChar c) = true := by
  rw [Bool.or_eq_true, goIsLetter_iff, goIsDigit_iff] at hw
  rw [isSlugChar_iff]
  by_cases hAZ : 65 ≤ c.toNat ∧ c.toNat ≤ 90
  · rw [goToLowerChar_toNat_of_upper hAZ] at hw ⊢
    omega
  · rw [goToLowerChar_id_of_nonupper hAZ (by omega)] at hw ⊢
    omega

theorem goToLowerChar_ascii {c : Char} (h : c.toNat < 128) :
    (goToLowerChar c).toNat < 128 := by
  by_cases hAZ : 65 ≤ c.toNat ∧ c.toNat ≤ 90
  · rw [goToLowerChar_toNat_of_upper hAZ]
    omega
  · rw [goToLowerChar_id_of_nonupper hAZ (by omega)]
    exact h

theorem utf8Size_of_ascii {c : Char} (h : c.toNat < 128) : utf8Size c = 1 := by
  unfold utf8Size
  rw [if_pos h]

theorem utf8Len_byteTake (s : List Char) : ∀ n, utf8Len (byteTake n s) ≤ n := by
  induction s with
  | nil => intro n; simp [byteTake, utf8Len]
  | cons c rest ih =>
    intro n
    rw [byteTake]
    split
    · rename_i hsz
      have := ih (n - utf8Size c)
      simp only [utf8Len, List.map_cons, List.sum_cons] at this ⊢
      omega
    · simp [utf8Len]

theorem utf8Len_trimRightDash (s : List Char) :
    utf8Len (trimRightDash s) ≤ utf8Len s := by
  induction s with
  | nil => exact Nat.le_refl _
  | cons c rest ih =>
    rw [trimRightDash]
    split
    · simp [utf8Len]
    · simp only [utf8Len, List.map_cons, List.sum_cons] at ih ⊢
      omega

theorem byteTake_of_ascii (s : List Char) (hs : ∀ c ∈ s, c.toNat < 128) :
    ∀ n, byteTake n s = s.take n := by
  induction s with
  | nil => intro n; simp [byteTake]
  | cons c rest ih =>
    intro n
    have hc : utf8Size c = 1 := utf8Size_of_ascii (hs c (by simp))
    rw [byteTake, hc]
    cases n with
    | zero => simp
    | succ m =>
      rw [if_pos (by omega)]
      have := ih (fun x hx => hs x (by simp [hx])) m
      simp [this]

theorem mem_trimRightDash {x : Char} : ∀ {s : List Char}, x ∈ trimRightDash s → x ∈ s := by
  intro s
  induction s with
  | nil => intro h; exact absurd h (by simp [trimRightDash])
  | cons c rest ih =>
    intro h
    rw [trimRightDash] at h
    split at h
    · exact absurd h (by simp)
    · rcases List.mem_cons.mp h with h | h
      · simp [h]
      · exact List.mem_cons_of_mem _ (ih h)

theorem mem_slugBuild {x : Char} :
    ∀ (input : List Char) (p : Bool) (acc : List Char),
      x ∈ slugBuild input p acc → x ∈ acc ∨ x ∈ input ∨ x = '-' := by
  intro input
  induction input with
  | nil =>
    intro p acc h
    exact Or.inl h
  | cons c rest ih =>
    intro p acc h
    rw [slugBuild] at h
    split at h
    · rcases ih false (acc ++ [c]) h with hacc | hrest | hd
      · rcases List.mem_append.mp hacc with h1 | h1
        · exact Or.inl h1
        · simp at h1
          exact Or.inr (Or.inl (by simp [h1]))
      · exact Or.inr (Or.inl (List.mem_cons_of_mem _ hrest))
      · exact Or.inr (Or.inr hd)
    · split at h
      · rcases ih true (acc ++ ['-']) h with hacc | hrest | hd
        · rcases List.mem_append.mp hacc with h1 | h1
          · exact Or.inl h1
          · simp at h1
            exact Or.inr (Or.inr h1)
        · exact Or.inr (Or.inl (List.mem_cons_of_mem _ hrest))
        · exact Or.inr (Or.inr hd)
      · rcases ih p acc h with hacc | hrest | hd
        · exact Or.inl hacc
        · exact Or.inr (Or.inl (List.mem_cons_of_mem _ hrest))
        · exact Or.inr (Or.inr hd)

theorem slugBuild_length_mono :
    ∀ (input : List Char) (p : Bool) (acc : List Char),
      acc.length ≤ (slugBuild input p acc).length := by
  intro input
  induction input with
  | nil => intro p acc; exact Nat.le_refl _
  | cons c rest ih =>
    intro p acc
    rw [slugBuild]
    split
    · calc acc.length ≤ (acc ++ [c]).length := by simp
        _ ≤ _ := ih false (acc ++ [c])
    · split
      · calc acc.length ≤ (acc ++ ['-']).length := by simp
          _ ≤ _ := ih true (acc ++ ['-'])
      · exact ih p acc

theorem slugBuild_ne_nil :
    ∀ (input : List Char) (p : Bool) (acc : List Char),
      (∃ c ∈ input, (goIsLetter c || goIsDigit c) = true) →
      slugBuild input p acc ≠ [] := by
  intro input
  induction input with
  | nil =>
    intro p acc h
    obtain ⟨c, hc, _⟩ := h
    exact absurd hc (by simp)
  | cons c rest ih =>
    intro p acc h
    rw [slugBuild]
    split
    · intro hcon
      have h1 := slugBuild_length_mono rest false (acc ++ [c])
      rw [hcon] at h1
      simp at h1
    · rename_i hnw
      obtain ⟨d, hd, hdw⟩ := h
      rcases List.mem_cons.mp hd with rfl | hdrest
      · exact absurd hdw (by simpa using hnw)
      · split
        · exact ih true (acc ++ ['-']) ⟨d, hdrest, hdw⟩
        · exact ih p acc ⟨d, hdrest, hdw⟩

/-- The reachable builder states of the slug loop: an empty builder
with the dash flag clear, a slug-language word with the flag clear, or
a slug-language word plus one trailing dash with the flag set. -/
def SlugInv (prevDash : Bool) (acc : List Char) : Prop :=
  (prevDash = false ∧ acc = []) ∨
  (prevDash = false ∧ slugMatches acc = true) ∨
  (prevDash = true ∧ ∃ s, slugMatches s = true ∧ acc = s ++ ['-'])

theorem slugMatches_append_char {s : List Char} {c : Char}
    (hs : slugMatches s = true) (hc : isSlugChar c = true) :
    slugMatches (s ++ [c]) = true := by
  cases s with
  | nil => exact absurd hs (by simp [slugMatches])
  | cons a rest =>
    rw [slugMatches, Bool.and_eq_true] at hs
    rw [List.cons_append, slugMatches, Bool.and_eq_true]
    exact ⟨hs.1, (slug_append_char hc rest).1 hs.2⟩

theorem slugMatches_append_dash_char {s : List Char} {c : Char}
    (hs : slugMatches s = true) (hc : isSlugChar c = true) :
    slugMatches (s ++ ['-', c]) = true := by
  cases s with
  | nil => exact absurd hs (by simp [slugMatches])
  | cons a rest =>
    rw [slugMatches, Bool.and_eq_true] at hs
    rw [List.cons_append, slugMatches, Bool.and_eq_true]
    exact ⟨hs.1, (slug_append_dash_char hc rest).1 hs.2⟩

theorem slugBuild_inv :
    ∀ (input : List Char),
      (∀ c ∈ input, (goIsLetter c || goIsDigit c) = true → isSlugChar c = true) →
      ∀ (p : Bool) (acc : List Char), SlugInv p acc →
        slugBuild input p acc = [] ∨
        slugMatches (slugBuild input p acc) = true ∨
        ∃ s, slugMatches s = true ∧ slugBuild input p acc = s ++ ['-'] := by
  intro input
  induction input with
  | nil =>
    intro _ p acc hinv
    rcases hinv with ⟨_, h⟩ | ⟨_, h⟩ | ⟨_, s, hs, h⟩
    · exact Or.inl h
    · exact Or.inr (Or.inl h)
    · exact Or.inr (Or.inr ⟨s, hs, h⟩)
  | cons c rest ih =>
    intro hcls p acc hinv
    rw [slugBuild]
    split
    · rename_i hw
      have hc : isSlugChar c = true := hcls c (by simp) hw
      refine ih (fun d hd => hcls d (by simp [hd])) false (acc ++ [c]) ?_
      rcases hinv with ⟨_, rfl⟩ | ⟨_, hm⟩ | ⟨_, s, hs, rfl⟩
      · refine Or.inr (Or.inl ⟨rfl, ?_⟩)
        rw [List.nil_append, slugMatches, Bool.and_eq_true]
        exact ⟨hc, rfl⟩
      · exact Or.inr (Or.inl ⟨rfl, slugMatches_append_char hm hc⟩)
      · refine Or.inr (Or.inl ⟨rfl, ?_⟩)
        rw [List.append_assoc]
        exact slugMatches_append_dash_char hs hc
    · split
      · rename_i hcond
        rw [Bool.and_eq_true] at hcond
        refine ih (fun d hd => hcls d (by simp [hd])) true (acc ++ ['-']) ?_
        rcases hinv with ⟨_, rfl⟩ | ⟨_, hm⟩ | ⟨hp, s, hs, rfl⟩
        · exact absurd hcond.2 (by simp)
        · exact Or.inr (Or.inr ⟨rfl, acc, hm, rfl⟩)
        · rw [hp] at hcond
          exact absurd hcond.1 (by simp)
      · exact ih (fun d hd => hcls d (by simp [hd])) p acc hinv

theorem slugMatches_trim_take {s : List Char} (n : Nat) (hn : 0 < n)
    (h : slugMatches s = true) :
    slugMatches (trimRightDash (s.take n)) = true := by
  cases s with
  | nil => exact absurd h (by simp [slugMatches])
  | cons c rest =>
    rw [slugMatches, Bool.and_eq_true] at h
    obtain ⟨m, rfl⟩ : ∃ m, n = m + 1 := ⟨n - 1, by omega⟩
    rw [List.take_succ_cons]
    rcases (slug_take rest m).1 h.2 with hr | ⟨p, hp, hrp⟩
    · have hm : slugMatches (c :: rest.take m) = true := by
        rw [slugMatches]
        simp [h.1, hr]
      rw [slugMatches_trimRightDash hm]
      exact hm
    · rw [hp, ← List.cons_append, trimRightDash_append_dash]
      have hm : slugMatches (c :: p) = true := by
        rw [slugMatches]
        simp [h.1, hrp]
      rw [slugMatches_trimRightDash hm]
      exact hm

/-- When no rune of the input is a letter or digit, the slug loop
never writes: a dash needs a nonempty builder first. -/
theorem slugBuild_nil_of_no_alnum :
    ∀ (input : List Char) (p : Bool),
      (∀ c ∈ input, (goIsLetter c || goIsDigit c) = false) →
      slugBuild input p [] = [] := by
  intro input
  induction input with
  | nil => intro p _; rfl
  | cons c rest ih =>
    intro p h
    rw [slugBuild]
    rw [if_neg (by simp [h c (by simp)]), if_neg (by simp)]
    exact ih p (fun d hd => h d (by simp [hd]))

/-- C2 amended: every slug is at most 100 UTF-8 bytes long; for a title
of ASCII runes the slug matches the anchored lowercase-alphanumeric
dash-separated pattern when the title contains at least one letter or
digit, and is empty otherwise.  (Titles with non-ASCII letters can
place those letters in the slug, outside the pattern.) -/
theorem mochi_c2_amended (title : List Char) :
    utf8Len (toSlugChars title) ≤ 100 ∧
    ((∀ c ∈ title, c.toNat < 128) →
      (∃ c ∈ title, (goIsLetter (goToLowerChar c) || goIsDigit (goToLowerChar c)) = true) →
      slugMatches (toSlugChars title) = true) ∧
    ((∀ c ∈ title, (goIsLetter (goToLowerChar c) || goIsDigit (goToLowerChar c)) = false) →
      toSlugChars title = []) := by
  refine ⟨?_, ?_, ?_⟩
  · simp only [toSlugChars]
    split
    · calc utf8Len (trimRightDash (byteTake 100 _))
          ≤ utf8Len (byteTake 100 _) := utf8Len_trimRightDash _
        _ ≤ 100 := utf8Len_byteTake _ 100
    · rename_i hle
      omega
  · intro hascii halnum
    obtain ⟨c0, hc0, hw0⟩ := halnum
    have hcls : ∀ c ∈ title.map goToLowerChar,
        (goIsLetter c || goIsDigit c) = true → isSlugChar c = true := by
      intro c hc hw
      obtain ⟨d, hd, rfl⟩ := List.mem_map.mp hc
      exact ascii_lower_written_isSlugChar (hascii d hd) hw
    have hne : slugBuild (title.map goToLowerChar) false [] ≠ [] :=
      slugBuild_ne_nil _ false [] ⟨goToLowerChar c0, List.mem_map_of_mem _ hc0, hw0⟩
    have hres : slugMatches (trimRightDash (slugBuild (title.map goToLowerChar) false [])) = true := by
      rcases slugBuild_inv _ hcls false [] (Or.inl ⟨rfl, rfl⟩) with hnil | hm | ⟨s, hs, heq⟩
      · exact absurd hnil hne
      · rw [slugMatches_trimRightDash hm]
        exact hm
      · rw [heq, trimRightDash_append_dash, slugMatches_trimRightDash hs]
        exact hs
    have hresasc : ∀ c ∈ trimRightDash (slugBuild (title.map goToLowerChar) false []),
        c.toNat < 128 := by
      intro c hc
      rcases mem_slugBuild _ _ _ (mem_trimRightDash hc) with h | h | h
      · exact absurd h (by simp)
      · obtain ⟨d, hd, rfl⟩ := List.mem_map.mp h
        exact goToLowerChar_ascii (hascii d hd)
      · rw [h]
        decide
    simp only [toSlugChars]
    split
    · rw [byteTake_of_ascii _ hresasc]
      exact slugMatches_trim_take 100 (by omega) hres
    · exact hres
  · intro hnone
    have hmap : ∀ c ∈ title.map goToLowerChar, (goIsLetter c || goIsDigit c) = false := by
      intro c hc
      obtain ⟨d, hd, rfl⟩ := List.mem_map.mp hc
      exact hnone d hd
    simp only [toSlugChars]
    rw [slugBuild_nil_of_no_alnum _ false hmap]
    rfl

/-- C2 witness: a concrete ASCII title whose slug the amended theorem
certifies against the pattern. -/
theorem mochi_c2_amended_witness :
    slugMatches (toSlugChars "Add user auth!".data) = true :=
  (mochi_c2_amended "Add user auth!".data).2.1 (by decide) (by decide)

/-- C2 counterexample: the claim as stated fails on the code.  The item
line with the single title rune e-acute parses (strategy 1) to a task
whose slug is that rune itself, because the slugifier keeps every
Unicode letter, and that slug does not match the pattern. -/
theorem mochi_c2_counterexample :
    (parseStructuredTasks ["## Tasks", "- é"]).map Task.slug = ["é"] ∧
    (parseStructuredTasks ["## Tasks", "- é"]).map
      (fun t => slugMatches t.slug.data) = [false] := by
  constructor
  · rfl
  · rfl

/-- C3 counterexample: the claim as stated fails on the code.  In the
structured section scan, a blank line after an unchecked checkbox item
does not terminate its description: the scan keeps the item in
progress, retains the blank line and appends the following line, so the
final description is not the text before the blank line. -/
theorem mochi_c3_counterexample :
    parseStructuredTasks ["## Tasks", "- [ ] A", "d1", "", "d2"] =
      [{ title := "A", description := "d1\n\nd2", slug := "a", model := "" }] ∧
    ("d1\n\nd2" : String) ≠ "d1" := by
  exact ⟨rfl, by decide⟩

/-- C3 amended: in the structured section scan (strategy 1) a blank
line inside a tasks section is appended to the description of ANY
in-progress item, checkbox items included; it is the global checkbox
scan (strategy 2) that flushes an in-progress checkbox item when it
meets a blank line. -/
theorem mochi_c3_amended :
    (∀ (st : StructState) (t : Task), st.inSection = true → st.current = some t →
      structStep st "" = { st with current := some (descAppend t "") }) ∧
    (∀ (st : CbState) (t : Task), st.current = some t →
      cbStep st "" = { tasks := st.tasks ++ [t], current := none }) := by
  constructor
  · intro st t hsec hcur
    obtain ⟨tks, cur, sec⟩ := st
    dsimp only at hsec hcur
    subst hsec
    subst hcur
    rfl
  · intro st t hcur
    obtain ⟨tks, cur⟩ := st
    dsimp only at hcur
    subst hcur
    rfl

/-- The concrete in-progress task of the C3 witness. -/
def taskA : Task := { title := "A", description := "d1", slug := "a", model := "" }

/-- C3 witness: the amended step facts evaluated at a concrete
in-progress task. -/
theorem mochi_c3_amended_witness :
    structStep { tasks := [], current := some taskA, inSection := true } "" =
      { tasks := [], current := some (descAppend taskA ""), inSection := true } ∧
    cbStep { tasks := [], current := some taskA } "" =
      { tasks := [taskA], current := none } :=
  ⟨mochi_c3_amended.1 _ _ rfl rfl, mochi_c3_amended.2 _ _ rfl⟩

/-! ## Workspace manager (internal/worktree) -/

/-- The loop of `resolveBranch`: starting at suffix index `i`, return
the first suffixed name the existence oracle reports free, for indices
up to 99; fall through to the unsuffixed name when all are taken. -/
def resolveLoop (ex : String → Bool) (branch : String) (i : Nat) : String :=
  if _h : i < 100 then
    if ex (branch ++ "-" ++ toString i) then resolveLoop ex branch (i + 1)
    else branch ++ "-" ++ toString i
  else branch
termination_by 100 - i

/-- Models `resolveBranch` of internal/worktree, with the git
branch-existence check abstracted as the oracle `ex`. -/
def resolveBranch (ex : String → Bool) (branch : String) : String :=
  if ex branch then resolveLoop ex branch 2 else branch

/-- The branch name `Create` passes to git worktree add: the prefixed
slug, deconflicted by `resolveBranch`. -/
def createBranchName (ex : String → Bool) (branchPrefix slug : String) : String :=
  resolveBranch ex (branchPrefix ++ "/" ++ slug)

theorem resolveLoop_first_free (ex : String → Bool) (branch : String) :
    ∀ (n i target : Nat), 2 ≤ i → i ≤ target → target ≤ 99 → target - i = n →
      ex (branch ++ "-" ++ toString target) = false →
      (∀ j, i ≤ j → j < target → ex (branch ++ "-" ++ toString j) = true) →
      resolveLoop ex branch i = branch ++ "-" ++ toString target := by
  intro n
  induction n with
  | zero =>
    intro i target h2 hit ht hn hfree _
    have : i = target := by omega
    subst this
    rw [resolveLoop, dif_pos (by omega : i < 100), if_neg (by rw [hfree]; exact Bool.false_ne_true)]
  | succ m ih =>
    intro i target h2 hit ht hn hfree hbusy
    have hlt : i < target := by omega
    rw [resolveLoop, dif_pos (by omega : i < 100),
      if_pos (hbusy i (Nat.le_refl _) hlt)]
    exact ih (i + 1) target (by omega) (by omega) ht (by omega) hfree
      (fun j hj hjt => hbusy j (by omega) hjt)

/-- C4: workspace creation resolves the branch name by starting with
the prefixed slug; when the existence check reports it taken, it tries
the suffixed names from 2 upward and returns the first free one. -/
theorem mochi_c4_resolveBranch (ex : String → Bool) (branchPrefix slug : String) :
    (ex (branchPrefix ++ "/" ++ slug) = false →
      createBranchName ex branchPrefix slug = branchPrefix ++ "/" ++ slug) ∧
    (∀ i, 2 ≤ i → i ≤ 99 →
      ex (branchPrefix ++ "/" ++ slug) = true →
      ex (branchPrefix ++ "/" ++ slug ++ "-" ++ toString i) = false →
      (∀ j, 2 ≤ j → j < i →
        ex (branchPrefix ++ "/" ++ slug ++ "-" ++ toString j) = true) →
      createBranchName ex branchPrefix slug =
        branchPrefix ++ "/" ++ slug ++ "-" ++ toString i) := by
  constructor
  · intro hfree
    unfold createBranchName resolveBranch
    rw [if_neg (by rw [hfree]; exact Bool.false_ne_true)]
  · intro i h2 h99 htaken hfree hbusy
    unfold createBranchName resolveBranch
    rw [if_pos htaken]
    exact resolveLoop_first_free ex _ (i - 2) 2 i (Nat.le_refl 2) h2 h99
      (by omega) hfree (fun j hj hji => hbusy j hj hji)

/-- The branch-existence oracle of scenario S4: exactly the two
branches feature/t and feature/t-2 exist. -/
def s4Exists (name : String) : Bool :=
  name = "feature/t" || name = "feature/t-2"

/-- C4 witness: with feature/t and feature/t-2 taken, creation for slug
t resolves to branch feature/t-3. -/
theorem mochi_c4_witness :
    createBranchName s4Exists "feature" "t" = "feature/t-3" := by
  refine (mochi_c4_resolveBranch s4Exists "feature" "t").2 3 (by decide)
    (by decide) (by decide) (by decide) ?_
  intro j h2 h3
  have hj : j = 2 := by omega
  subst hj
  decide

/-- One manifest record (internal/worktree `Entry`). -/
structure WtEntry where
  slug : String
  path : String
  branch : String
  status : String
deriving Repr, DecidableEq

/-- The manifest mapping, keyed by slug. -/
abbrev Manifest := List (String × WtEntry)

/-- Removal of one manifest entry (the delete of `removeEntry`). -/
def manifestRemove (man : Manifest) (slug : String) : Manifest :=
  man.filter (fun p => p.1 != slug)

/-- One git subprocess invocation of the workspace manager. -/
inductive ScmCall where
  | removeWorktree (path : String) (force : Bool)
  | deleteBranch (name : String)
deriving Repr, DecidableEq

/-- The source-control capability seen by `Destroy`: the combined
output of a failing worktree removal, or none on success. -/
structure ScmOps where
  removeWorktreeErr : String → Option String

/-- Models `Destroy` of internal/worktree: look the slug up in the
manifest; run git worktree remove with force; on failure return the
error (manifest untouched); on success fire the best-effort branch
deletion (result discarded) and drop the manifest entry.  The third
component records the git invocations issued. -/
def destroy (scm : ScmOps) (man : Manifest) (slug : String) :
    Except String Unit × Manifest × List ScmCall :=
  match man.lookup slug with
  | none => (.error ("no worktree entry found for slug " ++ slug), man, [])
  | some entry =>
    match scm.removeWorktreeErr entry.path with
    | some msg =>
      (.error ("git worktree remove failed: " ++ msg), man,
        [ScmCall.removeWorktree entry.path true])
    | none =>
      (.ok (), manifestRemove man slug,
        [ScmCall.removeWorktree entry.path true, ScmCall.deleteBranch entry.branch])

theorem manifestRemove_lookup (man : Manifest) (slug : String) :
    (manifestRemove man slug).lookup slug = none := by
  induction man with
  | nil => rfl
  | cons p rest ih =>
    unfold manifestRemove at ih ⊢
    rw [List.filter_cons]
    by_cases h : p.1 = slug
    · rw [if_neg (by simp [h])]
      exact ih
    · rw [if_pos (by simp [h]), List.lookup]
      rw [show (slug == p.1) = false from
        beq_eq_false_iff_ne.mpr (fun he => h he.symm)]
      exact ih

/-- C5 amended: destroy removes the workspace through the SCM with
force; on success it fires a best-effort branch deletion and removes
the manifest entry; but when the SCM removal fails (in particular when
the workspace is already gone) destroy returns the error and leaves
the manifest entry in place, without attempting the branch deletion. -/
theorem mochi_c5_amended (scm : ScmOps) (man : Manifest) (slug : String)
    (entry : WtEntry) (hlookup : man.lookup slug = some entry) :
    (scm.removeWorktreeErr entry.path = none →
      (destroy scm man slug).1 = .ok () ∧
      ((destroy scm man slug).2.1).lookup slug = none ∧
      (destroy scm man slug).2.2 =
        [ScmCall.removeWorktree entry.path true,
         ScmCall.deleteBranch entry.branch]) ∧
    (∀ msg, scm.removeWorktreeErr entry.path = some msg →
      (destroy scm man slug).1 = .error ("git worktree remove failed: " ++ msg) ∧
      (destroy scm man slug).2.1 = man ∧
      (destroy scm man slug).2.2 = [ScmCall.removeWorktree entry.path true]) := by
  constructor
  · intro hok
    unfold destroy
    rw [hlookup]
    dsimp only
    rw [hok]
    exact ⟨rfl, manifestRemove_lookup man slug, rfl⟩
  · intro msg herr
    unfold destroy
    rw [hlookup]
    dsimp only
    rw [herr]
    exact ⟨rfl, rfl, rfl⟩

/-- The concrete entry of the C5 scenario. -/
def entryT : WtEntry :=
  { slug := "t", path := "/ws/t", branch := "feature/t", status := "done" }

/-- The SCM behavior when the workspace directory is already gone: git
worktree remove fails. -/
def goneScm : ScmOps :=
  { removeWorktreeErr := fun _ => some "fatal: validation failed, cannot remove working tree" }

/-- C5 counterexample: the claim as stated fails on the code.  With the
workspace already gone, destroy reports the failure but does NOT remove
the manifest entry: the slug is still present afterwards. -/
theorem mochi_c5_counterexample :
    (destroy goneScm [("t", entryT)] "t").1 =
      .error "git worktree remove failed: fatal: validation failed, cannot remove working tree" ∧
    ((destroy goneScm [("t", entryT)] "t").2.1).lookup "t" = some entryT := by
  exact ⟨rfl, rfl⟩

/-- C5 witness: the amended theorem evaluated on the concrete
already-gone scenario. -/
theorem mochi_c5_amended_witness :
    (destroy goneScm [("t", entryT)] "t").2.1 = [("t", entryT)] :=
  ((mochi_c5_amended goneScm [("t", entryT)] "t" entryT rfl).2
    "fatal: validation failed, cannot remove working tree" rfl).2.1

/-! ## Memory store (internal/memory) -/

/-- The four memory blobs (internal/memory `Context`). -/
structure MemContext where
  progress : String
  memory : String
  agents : String
  feedback : String
deriving Repr, DecidableEq

/-- Models `HasAny`: true when at least one blob is nonempty. -/
def memHasAny (c : MemContext) : Bool :=
  c.progress != "" || c.memory != "" || c.agents != "" || c.feedback != ""

/-- The per-workspace filesystem visible to the memory store: file
content by name at the workspace root, none when the file is absent. -/
def MemFs : Type := String → Option String

/-- Models `readFile`: a missing file becomes the empty string. -/
def readFileD (fs : MemFs) (name : String) : String := (fs name).getD ""

/-- Models `Load` of internal/memory. -/
def memLoad (fs : MemFs) : MemContext :=
  { progress := readFileD fs "PROGRESS.md"
    memory := readFileD fs "MEMORY.md"
    agents := readFileD fs "AGENTS.md"
    feedback := readFileD fs "FEEDBACK.md" }

/-- The data persisted after one iteration (internal/memory
`IterationData`). -/
structure IterationData where
  iteration : Int
  task : String
  workerOutput : String
  reviewerNotes : String
  status : String
deriving Repr, DecidableEq

/-- Models `truncate` of internal/memory: the Go code measures and
slices bytes, so the bound is on the UTF-8 byte length. -/
def truncateGo (s : String) (maxLen : Nat) : String :=
  if utf8Len s.data ≤ maxLen then s
  else (⟨byteTake maxLen s.data⟩ : String) ++ "\n...[truncated]"

/-- The PROGRESS.md content written by `Write`. -/
def progressText (d : IterationData) : String :=
  "# Task Progress\n\n**Task:** " ++ d.task ++ "\n\n**Iteration:** " ++
  toString d.iteration ++ "\n\n**Status:** " ++ d.status ++ "\n"

/-- The MEMORY.md content written by `Write`: the worker output
truncated to 4000 bytes. -/
def memoryText (d : IterationData) : String :=
  "# Worker Memory\n\n## Iteration " ++ toString d.iteration ++
  " Output\n\n" ++ truncateGo d.workerOutput 4000 ++ "\n"

/-- The AGENTS.md content written by `Write` (`buildAgentsFile`). -/
def agentsText (d : IterationData) : String :=
  "# Agent Learnings\n\n" ++
  "Iteration " ++ toString d.iteration ++ " completed with status: " ++
  d.status ++ "\n\n" ++
  (if d.reviewerNotes != "" then
    "## Key Feedback Points\n\n" ++ d.reviewerNotes ++ "\n\n"
  else "") ++
  "## Instructions for Next Iteration\n\n" ++
  "- Review FEEDBACK.md before starting work\n" ++
  "- Address all reviewer notes\n" ++
  "- Build on previous iteration\x27s progress in MEMORY.md"

/-- The FEEDBACK.md content written by `Write`: reviewer notes only,
empty when there are none. -/
def feedbackText (d : IterationData) : String :=
  if d.reviewerNotes != "" then
    "# Reviewer Feedback\n\n## Iteration " ++ toString d.iteration ++
    "\n\n" ++ d.reviewerNotes ++ "\n"
  else ""

/-- Models `Write` of internal/memory: rewrite the four files from
scratch (each an independent full-file write). -/
def memWrite (fs : MemFs) (d : IterationData) : MemFs :=
  fun name =>
    if name = "PROGRESS.md" then some (progressText d)
    else if name = "MEMORY.md" then some (memoryText d)
    else if name = "AGENTS.md" then some (agentsText d)
    else if name = "FEEDBACK.md" then some (feedbackText d)
    else fs name

theorem memWrite_progress (fs : MemFs) (d : IterationData) :
    memWrite fs d "PROGRESS.md" = some (progressText d) := by
  unfold memWrite
  rw [if_pos rfl]

theorem memWrite_memory (fs : MemFs) (d : IterationData) :
    memWrite fs d "MEMORY.md" = some (memoryText d) := by
  unfold memWrite
  rw [if_neg (by decide), if_pos rfl]

theorem memWrite_agents (fs : MemFs) (d : IterationData) :
    memWrite fs d "AGENTS.md" = some (agentsText d) := by
  unfold memWrite
  rw [if_neg (by decide), if_neg (by decide), if_pos rfl]

theorem memWrite_feedback (fs : MemFs) (d : IterationData) :
    memWrite fs d "FEEDBACK.md" = some (feedbackText d) := by
  unfold memWrite
  rw [if_neg (by decide), if_neg (by decide), if_neg (by decide), if_pos rfl]

/-- C6: loading the state produced by a write returns exactly the four
blobs the write produced (the worker output inside MEMORY.md being the
truncated one), and a missing file loads as the empty string. -/
theorem mochi_c6_memory_roundtrip (fs : MemFs) (d : IterationData) :
    memLoad (memWrite fs d) =
      { progress := progressText d, memory := memoryText d,
        agents := agentsText d, feedback := feedbackText d } ∧
    (∀ fs2 : MemFs, fs2 "PROGRESS.md" = none → (memLoad fs2).progress = "") ∧
    (∀ fs2 : MemFs, fs2 "MEMORY.md" = none → (memLoad fs2).memory = "") ∧
    (∀ fs2 : MemFs, fs2 "AGENTS.md" = none → (memLoad fs2).agents = "") ∧
    (∀ fs2 : MemFs, fs2 "FEEDBACK.md" = none → (memLoad fs2).feedback = "") := by
  refine ⟨?_, ?_, ?_, ?_, ?_⟩
  · unfold memLoad readFileD
    rw [memWrite_progress, memWrite_memory, memWrite_agents, memWrite_feedback]
    rfl
  · intro fs2 h
    unfold memLoad readFileD
    rw [h]
    rfl
  · intro fs2 h
    unfold memLoad readFileD
    rw [h]
    rfl
  · intro fs2 h
    unfold memLoad readFileD
    rw [h]
    rfl
  · intro fs2 h
    unfold memLoad readFileD
    rw [h]
    rfl

/-- The iteration data of the C6 witness. -/
def dSample : IterationData :=
  { iteration := 1, task := "t", workerOutput := "out",
    reviewerNotes := "notes", status := "done" }

/-- C6 witness: the round trip evaluated at a concrete iteration record
over an empty workspace, plus one concrete missing-file load. -/
theorem mochi_c6_witness :
    memLoad (memWrite (fun _ => none) dSample) =
      { progress := progressText dSample, memory := memoryText dSample,
        agents := agentsText dSample, feedback := feedbackText dSample } ∧
    (memLoad (fun _ => none)).progress = "" :=
  ⟨(mochi_c6_memory_roundtrip (fun _ => none) dSample).1,
   (mochi_c6_memory_roundtrip (fun _ => none) dSample).2.1 (fun _ => none) rfl⟩

theorem strData_append (a b : String) : (a ++ b).data = a.data ++ b.data := rfl

theorem byteTake_is_prefix (s : List Char) :
    ∀ n, ∃ q, s = byteTake n s ++ q := by
  induction s with
  | nil => intro n; exact ⟨[], rfl⟩
  | cons c rest ih =>
    intro n
    rw [byteTake]
    split
    · obtain ⟨q, hq⟩ := ih (n - utf8Size c)
      exact ⟨q, by rw [List.cons_append, ← hq]⟩
    · exact ⟨c :: rest, rfl⟩

/-- C7 amended: the MEMORY.md blob embeds the worker output unchanged
when the output is at most 4000 UTF-8 bytes long; when it is longer,
the blob embeds a prefix of at most 4000 bytes of the output followed
by the truncation marker.  (The Go cut is at 4000 bytes, not 4000
characters.) -/
theorem mochi_c7_amended (fs : MemFs) (d : IterationData) :
    memWrite fs d "MEMORY.md" = some (memoryText d) ∧
    (utf8Len d.workerOutput.data ≤ 4000 →
      memoryText d = "# Worker Memory\n\n## Iteration " ++
        toString d.iteration ++ " Output\n\n" ++ d.workerOutput ++ "\n") ∧
    (utf8Len d.workerOutput.data > 4000 →
      ∃ p : String,
        memoryText d = "# Worker Memory\n\n## Iteration " ++
          toString d.iteration ++ " Output\n\n" ++
          (p ++ "\n...[truncated]") ++ "\n" ∧
        utf8Len p.data ≤ 4000 ∧
        ∃ q, d.workerOutput.data = p.data ++ q) := by
  refine ⟨memWrite_memory fs d, ?_, ?_⟩
  · intro hle
    unfold memoryText truncateGo
    rw [if_pos hle]
  · intro hgt
    refine ⟨⟨byteTake 4000 d.workerOutput.data⟩, ?_, utf8Len_byteTake _ 4000, ?_⟩
    · unfold memoryText truncateGo
      rw [if_neg (by omega)]
    · exact byteTake_is_prefix d.workerOutput.data 4000

/-- The iteration data of the C7 witness: a short ASCII output. -/
def dShort : IterationData :=
  { iteration := 2, task := "t", workerOutput := "short output",
    reviewerNotes := "", status := "done" }

/-- C7 witness: the amended statement evaluated at a short output,
whose MEMORY.md embeds it unchanged. -/
theorem mochi_c7_witness :
    memoryText dShort =
      "# Worker Memory\n\n## Iteration 2 Output\n\nshort output\n" :=
  (mochi_c7_amended (fun _ => none) dShort).2.1 (by decide)

/-- The iteration data of the C7 counterexample: 2001 copies of the
two-byte rune e-acute, 2001 characters but 4002 UTF-8 bytes. -/
def dTwoByte : IterationData :=
  { iteration := 1, task := "t",
    workerOutput := ⟨List.replicate 2001 'é'⟩,
    reviewerNotes := "", status := "in-progress" }

theorem byteTake_replicate_eacute :
    ∀ (m : Nat) (n : Nat),
      byteTake (2 * n) (List.replicate m 'é') = List.replicate (min n m) 'é' := by
  intro m
  induction m with
  | zero => intro n; simp [byteTake]
  | succ k ih =>
    intro n
    rw [List.replicate_succ, byteTake]
    rw [show utf8Size 'é' = 2 from by decide]
    by_cases hn : 1 ≤ n
    · rw [if_pos (by omega)]
      rw [show 2 * n - 2 = 2 * (n - 1) from by omega, ih (n - 1)]
      rw [show min n (k + 1) = min (n - 1) k + 1 from by omega, List.replicate_succ]
    · rw [if_neg (by omega)]
      rw [show min n (k + 1) = 0 from by omega]
      rfl

theorem utf8Len_replicate_eacute (m : Nat) :
    utf8Len (List.replicate m 'é') = 2 * m := by
  induction m with
  | zero => rfl
  | succ k ih =>
    rw [List.replicate_succ]
    simp only [utf8Len, List.map_cons, List.sum_cons] at ih ⊢
    rw [show utf8Size 'é' = 2 from by decide]
    omega

/-- C7 counterexample: the claim as stated fails on the code.  A worker
output of 2001 characters (hence not exceeding 4000 characters) is
nevertheless truncated, because its UTF-8 length is 4002 bytes: the
MEMORY.md blob is not the unchanged embedding of the output. -/
theorem mochi_c7_counterexample :
    dTwoByte.workerOutput.data.length ≤ 4000 ∧
    memoryText dTwoByte ≠
      "# Worker Memory\n\n## Iteration 1 Output\n\n" ++
        dTwoByte.workerOutput ++ "\n" := by
  constructor
  · show (List.replicate 2001 'é').length ≤ 4000
    rw [List.length_replicate]
    omega
  · have hlen : utf8Len dTwoByte.workerOutput.data = 4002 := by
      show utf8Len (List.replicate 2001 'é') = 4002
      rw [utf8Len_replicate_eacute]
    have htr : truncateGo dTwoByte.workerOutput 4000 =
        (⟨List.replicate 2000 'é'⟩ : String) ++ "\n...[truncated]" := by
      unfold truncateGo
      rw [if_neg (by omega)]
      show (⟨byteTake 4000 (List.replicate 2001 'é')⟩ : String) ++ _ = _
      rw [show (4000 : Nat) = 2 * 2000 from rfl, byteTake_replicate_eacute]
      rfl
    intro heq
    unfold memoryText at heq
    rw [htr] at heq
    have hd := congrArg (fun s : String => s.data.length) heq
    simp only [strData_append, List.length_append, List.length_cons,
      List.length_nil, List.length_replicate] at hd
    have e2 : dTwoByte.workerOutput.data.length = 2001 := by
      show (List.replicate 2001 'é').length = 2001
      rw [List.length_replicate]
    omega

/-! ## Refinement loop (internal/orchestrator, `runRalphLoop`) -/

/-- The worker outcome fields the loop consumes (internal/agent
`Result`, restricted to what the loop reads). -/
structure AgentResult where
  success : Bool
  output : String
deriving Repr, DecidableEq

/-- The oracle view of one run: the worker invocation outcome per
iteration and loaded memory context, the reviewer verdict per
iteration and worker output (none models a reviewer error, which
leaves no verdict), and the configuration fields the loop reads. -/
structure LoopEnv where
  worker : Nat → MemContext → AgentResult
  review : Nat → String → Option Decision
  reviewerModel : String
  maxIterations : Int

/-- The loop outcome (orchestrator `LoopResult`). -/
structure LoopResult where
  finalWorkerResult : AgentResult
  iterations : Nat
  finalMemory : MemContext

/-- The effective iteration bound of `runRalphLoop`: a configured
maximum below 1 behaves as 1. -/
def effMaxIter (m : Int) : Nat := if m < 1 then 1 else m.toNat

/-- One iteration body of `runRalphLoop`: load memory, invoke the
worker, consult the reviewer when one is configured and the worker
succeeded (an erroring reviewer leaves no verdict), force done when no
reviewer is configured or on worker failure, and write the four memory
files.  Returns the worker result, the done flag, and the filesystem
after the memory write. -/
def loopIterate (env : LoopEnv) (task : String) (maxIter iter : Nat)
    (fs : MemFs) : AgentResult × Bool × MemFs :=
  let memCtx := memLoad fs
  let result := env.worker iter memCtx
  let status0 := if result.success then "in-progress" else "failed"
  let verdict :=
    if env.reviewerModel ≠ "" ∧ result.success = true then
      env.review iter result.output
    else none
  let reviewerNotes :=
    match verdict with
    | some dec => dec.feedback
    | none => ""
  let done0 :=
    match verdict with
    | some dec => dec.done
    | none => false
  let done1 :=
    if result.success = true ∧ env.reviewerModel = "" then true else done0
  let done := if result.success = false then true else done1
  let status :=
    if (done = true ∨ iter = maxIter) ∧ done = true ∧ result.success = true then
      "done"
    else status0
  let fs2 := memWrite fs
    { iteration := iter, task := task, workerOutput := result.output,
      reviewerNotes := reviewerNotes, status := status }
  (result, done, fs2)

/-- The loop of `runRalphLoop` from iteration `iter` on: run the body,
stop when done or at the bound, otherwise continue with the next
iteration on the written filesystem.  Returns the last worker result,
the number of the last iteration run, the final filesystem, and the
worker results in order.  The fuel argument only makes the recursion
structural; every call supplies enough for the bound, so the
out-of-fuel branch is never reached. -/
def runLoopFrom (env : LoopEnv) (task : String) (maxIter : Nat) :
    Nat → Nat → MemFs → AgentResult × Nat × MemFs × List AgentResult
  | 0, iter, fs => ({ success := false, output := "" }, iter, fs, [])
  | fuel + 1, iter, fs =>
    let step := loopIterate env task maxIter iter fs
    if step.2.1 = true ∨ maxIter ≤ iter then
      (step.1, iter, step.2.2, [step.1])
    else
      let r := runLoopFrom env task maxIter fuel (iter + 1) step.2.2
      (r.1, r.2.1, r.2.2.1, step.1 :: r.2.2.2)

/-- Models `runRalphLoop` of internal/orchestrator: iterate from 1 up
to the effective bound; the loop result carries the final worker
result, the iterations used and the reloaded final memory context.
The second and third components expose the final filesystem and the
sequence of worker results. -/
def runRalphLoop (env : LoopEnv) (task : String) (fs : MemFs) :
    LoopResult × MemFs × List AgentResult :=
  let maxIter := effMaxIter env.maxIterations
  let r := runLoopFrom env task maxIter maxIter 1 fs
  ({ finalWorkerResult := r.1, iterations := r.2.1,
     finalMemory := memLoad r.2.2.1 }, r.2.2.1, r.2.2.2)

theorem effMaxIter_pos (m : Int) : 1 ≤ effMaxIter m := by
  unfold effMaxIter
  split
  · exact Nat.le_refl 1
  · rename_i h
    omega

/-- A body whose done flag is clear came from a successful worker:
failure forces done. -/
theorem loopIterate_success_of_not_done (env : LoopEnv) (task : String)
    (maxIter iter : Nat) (fs : MemFs)
    (h : (loopIterate env task maxIter iter fs).2.1 = false) :
    (loopIterate env task maxIter iter fs).1.success = true := by
  unfold loopIterate at h ⊢
  dsimp only at h ⊢
  by_cases hs : (env.worker iter (memLoad fs)).success = true
  · exact hs
  · rw [if_pos (by simp [hs])] at h
    exact absurd h (by simp)

theorem getLast?_cons_of_ne_nil {α : Type} (a : α) {l : List α} (h : l ≠ []) :
    (a :: l).getLast? = l.getLast? := by
  cases l with
  | nil => exact absurd rfl h
  | cons b t => rfl

theorem runLoopFrom_spec (env : LoopEnv) (task : String) (maxIter : Nat) :
    ∀ (fuel iter : Nat) (fs : MemFs), iter ≤ maxIter → maxIter < iter + fuel →
      iter ≤ (runLoopFrom env task maxIter fuel iter fs).2.1 ∧
      (runLoopFrom env task maxIter fuel iter fs).2.1 ≤ maxIter ∧
      (runLoopFrom env task maxIter fuel iter fs).2.2.2.length =
        (runLoopFrom env task maxIter fuel iter fs).2.1 + 1 - iter ∧
      (∀ x ∈ (runLoopFrom env task maxIter fuel iter fs).2.2.2.dropLast,
        x.success = true) ∧
      (runLoopFrom env task maxIter fuel iter fs).2.2.2.getLast? =
        some (runLoopFrom env task maxIter fuel iter fs).1 := by
  intro fuel
  induction fuel with
  | zero =>
    intro iter fs hle hfuel
    omega
  | succ m ih =>
    intro iter fs hle hfuel
    rw [runLoopFrom]
    dsimp only
    by_cases hstop : (loopIterate env task maxIter iter fs).2.1 = true ∨ maxIter ≤ iter
    · rw [if_pos hstop]
      dsimp only
      refine ⟨Nat.le_refl _, hle, ?_, ?_, rfl⟩
      · rw [List.length_singleton]
        omega
      · intro x hx
        exact absurd hx (by simp)
    · rw [if_neg hstop]
      dsimp only
      push_neg at hstop
      obtain ⟨hdone, hlt⟩ := hstop
      have hsucc : (loopIterate env task maxIter iter fs).1.success = true :=
        loopIterate_success_of_not_done env task maxIter iter fs
          (by revert hdone; cases (loopIterate env task maxIter iter fs).2.1 <;> simp)
      have hih := ih (iter + 1) (loopIterate env task maxIter iter fs).2.2
        (by omega) (by omega)
      obtain ⟨h1, h2, h3, h4, h5⟩ := hih
      have hne : (runLoopFrom env task maxIter m (iter + 1)
          (loopIterate env task maxIter iter fs).2.2).2.2.2 ≠ [] := by
        intro hnil
        rw [hnil] at h3
        simp at h3
        omega
      refine ⟨by omega, h2, ?_, ?_, ?_⟩
      · rw [List.length_cons, h3]
        omega
      · rw [List.dropLast_cons_of_ne_nil hne]
        intro x hx
        rcases List.mem_cons.mp hx with rfl | hx2
        · exact hsucc
        · exact h4 x hx2
      · rw [getLast?_cons_of_ne_nil _ hne]
        exact h5

/-- C8: the loop executes at least one iteration and at most the
effective bound (a configured maximum below 1 behaving as 1), every
worker result before the last one was a success (the loop stops
immediately at a failed iteration), and the last worker result is the
one returned. -/
theorem mochi_c8_loop_bounds (env : LoopEnv) (task : String) (fs : MemFs) :
    1 ≤ (runRalphLoop env task fs).1.iterations ∧
    (runRalphLoop env task fs).1.iterations ≤ effMaxIter env.maxIterations ∧
    (runRalphLoop env task fs).2.2.length = (runRalphLoop env task fs).1.iterations ∧
    (∀ x ∈ (runRalphLoop env task fs).2.2.dropLast, x.success = true) ∧
    (runRalphLoop env task fs).2.2.getLast? =
      some (runRalphLoop env task fs).1.finalWorkerResult := by
  have hpos := effMaxIter_pos env.maxIterations
  have h := runLoopFrom_spec env task (effMaxIter env.maxIterations)
    (effMaxIter env.maxIterations) 1 fs hpos (by omega)
  obtain ⟨h1, h2, h3, h4, h5⟩ := h
  unfold runRalphLoop
  dsimp only
  exact ⟨h1, h2, by omega, h4, h5⟩

/-- The concrete environment of the C8 witness: three iterations with
a reviewer that never returns a verdict. -/
def envC8 : LoopEnv :=
  { worker := fun _ _ => { success := true, output := "ok" },
    review := fun _ _ => none,
    reviewerModel := "rev",
    maxIterations := 3 }

/-- C8 witness: the bounds evaluated on a concrete three-iteration
run. -/
theorem mochi_c8_witness :
    (runRalphLoop envC8 "t" (fun _ => none)).1.iterations = 3 ∧
    ((runRalphLoop envC8 "t" (fun _ => none)).2.2.dropLast.map
      AgentResult.success) = [true, true] := by
  have h := mochi_c8_loop_bounds envC8 "t" (fun _ => none)
  refine ⟨rfl, ?_⟩
  have h4 := h.2.2.2.1
  rfl

/-- The comparison point of the specification for C9: one bare
`Agent.Invoke` call, which produces the worker result for iteration 1
of 1 from the loaded memory context and does not touch the four
per-workspace memory files. -/
def singleInvoke (env : LoopEnv) (fs : MemFs) : AgentResult × MemFs :=
  (env.worker 1 (memLoad fs), fs)

/-- With no reviewer configured, every iteration body sets done. -/
theorem loopIterate_done_of_no_reviewer (env : LoopEnv) (task : String)
    (maxIter iter : Nat) (fs : MemFs) (hrev : env.reviewerModel = "") :
    (loopIterate env task maxIter iter fs).2.1 = true := by
  unfold loopIterate
  dsimp only
  by_cases hs : (env.worker iter (memLoad fs)).success = true
  · rw [if_neg (by simp [hs]), if_pos ⟨hs, hrev⟩]
  · rw [if_pos (by simp at hs; exact hs)]

/-- C9 amended: with no reviewer configured and an iteration maximum
of 1, the loop returns exactly the result of the single agent
invocation (same task, model and timeout, iteration 1 of 1, with the
loaded memory context), runs exactly one iteration, and its only
additional observable effect against the bare invocation is the single
write of the four memory files for that iteration. -/
theorem mochi_c9_amended (env : LoopEnv) (task : String) (fs : MemFs)
    (hrev : env.reviewerModel = "") (hmax : env.maxIterations = 1) :
    (runRalphLoop env task fs).1.finalWorkerResult = (singleInvoke env fs).1 ∧
    (runRalphLoop env task fs).1.iterations = 1 ∧
    (runRalphLoop env task fs).2.2 = [(singleInvoke env fs).1] ∧
    (runRalphLoop env task fs).2.1 =
      memWrite (singleInvoke env fs).2
        { iteration := 1, task := task,
          workerOutput := (singleInvoke env fs).1.output,
          reviewerNotes := "",
          status := if (singleInvoke env fs).1.success then "done" else "failed" } := by
  have hm : effMaxIter env.maxIterations = 1 := by
    rw [hmax]
    rfl
  have hdone := loopIterate_done_of_no_reviewer env task 1 1 fs hrev
  have hstep : loopIterate env task 1 1 fs =
      (env.worker 1 (memLoad fs), true,
        memWrite fs
          { iteration := 1, task := task,
            workerOutput := (env.worker 1 (memLoad fs)).output,
            reviewerNotes := "",
            status := if (env.worker 1 (memLoad fs)).success then "done" else "failed" }) := by
    unfold loopIterate
    by_cases hs : (env.worker 1 (memLoad fs)).success = true
    · simp [hs, hrev]
    · have hs2 : (env.worker 1 (memLoad fs)).success = false := by
        revert hs
        cases (env.worker 1 (memLoad fs)).success <;> simp
      simp [hs2, hrev]
  unfold runRalphLoop
  rw [hm]
  dsimp only
  rw [runLoopFrom]
  dsimp only
  rw [if_pos (Or.inl hdone)]
  rw [hstep]
  exact ⟨rfl, rfl, rfl, rfl⟩

/-- The concrete environment of the C9 scenario: no reviewer, one
iteration, a succeeding worker. -/
def envC9 : LoopEnv :=
  { worker := fun _ _ => { success := true, output := "ok" },
    review := fun _ _ => none,
    reviewerModel := "",
    maxIterations := 1 }

/-- C9 counterexample: the claim as stated fails on the code.  With no
reviewer and an iteration maximum of 1, the loop returns the same
worker result as the single invocation, but it is not behaviorally
identical: it writes the four memory files, so the workspace state
afterwards differs from the untouched state a bare Agent.Invoke
leaves. -/
theorem mochi_c9_counterexample :
    (runRalphLoop envC9 "t" (fun _ => none)).1.finalWorkerResult =
      (singleInvoke envC9 (fun _ => none)).1 ∧
    (runRalphLoop envC9 "t" (fun _ => none)).2.1 "PROGRESS.md" ≠
      (singleInvoke envC9 (fun _ => none)).2 "PROGRESS.md" := by
  constructor
  · rfl
  · intro h
    exact Option.noConfusion h

/-- C9 witness: the amended statement evaluated on the concrete
scenario. -/
theorem mochi_c9_witness :
    (runRalphLoop envC9 "t" (fun _ => none)).1.iterations = 1 :=
  (mochi_c9_amended envC9 "t" (fun _ => none) rfl rfl).2.1

/-! ## Scheduler concurrency (internal/orchestrator, `Run`, step 6) -/

/-- Whether the parallel dispatch of `Run` builds the semaphore
channel: only when a positive ceiling is configured that is below the
number of tasks (`cfg.MaxWorktrees > 0 && cfg.MaxWorktrees < len(tasks)`);
otherwise the acquire and release around each loop are skipped. -/
def semUsed (maxWorktrees : Int) (nTasks : Nat) : Bool :=
  decide (0 < maxWorktrees) && decide (maxWorktrees < (nTasks : Int))

/-- Aggregate state of the dispatch goroutines, counted by phase: not
yet spawned, spawned but still before the semaphore acquire, running
the refinement loop (between acquire and release), finished (released).
The transitions never depend on which task is which, so counting is a
faithful view of the dispatch loop. -/
structure SchedState where
  idle : Nat
  waiting : Nat
  running : Nat
  finished : Nat
deriving Repr, DecidableEq

/-- The number of refinement loops in flight. -/
def inFlight (s : SchedState) : Nat := s.running

/-- Total number of goroutines across phases. -/
def totalTasks (s : SchedState) : Nat :=
  s.idle + s.waiting + s.running + s.finished

/-- One scheduler transition: spawn a goroutine, pass the semaphore
acquire (blocking below the ceiling when the semaphore is used,
unconditional when it is bypassed), or finish a loop and release. -/
inductive SchedStep (maxWorktrees : Int) (nTasks : Nat) :
    SchedState → SchedState → Prop where
  | spawn (s : SchedState) (h : 0 < s.idle) :
      SchedStep maxWorktrees nTasks s
        { s with idle := s.idle - 1, waiting := s.waiting + 1 }
  | acquire (s : SchedState) (h : 0 < s.waiting)
      (hsem : semUsed maxWorktrees nTasks = true →
        s.running < maxWorktrees.toNat) :
      SchedStep maxWorktrees nTasks s
        { s with waiting := s.waiting - 1, running := s.running + 1 }
  | finish (s : SchedState) (h : 0 < s.running) :
      SchedStep maxWorktrees nTasks s
        { s with running := s.running - 1, finished := s.finished + 1 }

/-- States reachable from the start of the dispatch (no goroutine
spawned yet). -/
def SchedReach (maxWorktrees : Int) (nTasks : Nat) (s : SchedState) : Prop :=
  Relation.ReflTransGen (SchedStep maxWorktrees nTasks)
    { idle := nTasks, waiting := 0, running := 0, finished := 0 } s

theorem sched_inv (maxW : Int) (n : Nat) (s : SchedState)
    (h : SchedReach maxW n s) :
    totalTasks s = n ∧
    (semUsed maxW n = true → s.running ≤ maxW.toNat) := by
  induction h with
  | refl =>
    refine ⟨?_, fun _ => Nat.zero_le _⟩
    unfold totalTasks
    dsimp only
    omega
  | tail hr hstep ih =>
    obtain ⟨iht, ihs⟩ := ih
    cases hstep with
    | spawn h2 =>
      unfold totalTasks at iht ⊢
      dsimp only at iht ⊢
      exact ⟨by omega, fun hu => ihs hu⟩
    | acquire h2 hsem2 =>
      unfold totalTasks at iht ⊢
      dsimp only at iht ⊢
      refine ⟨by omega, fun hu => ?_⟩
      have := hsem2 hu
      have := ihs hu
      omega
    | finish h2 =>
      unfold totalTasks at iht ⊢
      dsimp only at iht ⊢
      refine ⟨by omega, fun hu => ?_⟩
      have := ihs hu
      omega

theorem sched_reach_all_running (maxW : Int) (n : Nat)
    (hsem : semUsed maxW n = false) :
    SchedReach maxW n { idle := 0, waiting := 0, running := n, finished := 0 } := by
  suffices h : ∀ k, k ≤ n → SchedReach maxW n
      { idle := n - k, waiting := 0, running := k, finished := 0 } by
    have hh := h n (Nat.le_refl n)
    rw [Nat.sub_self] at hh
    exact hh
  intro k
  induction k with
  | zero =>
    intro _
    rw [Nat.sub_zero]
    exact Relation.ReflTransGen.refl
  | succ m ih =>
    intro hle
    have hr := ih (by omega)
    have st1 : SchedStep maxW n
        { idle := n - m, waiting := 0, running := m, finished := 0 }
        { idle := n - m - 1, waiting := 1, running := m, finished := 0 } :=
      SchedStep.spawn _ (by dsimp only; omega)
    have st2 : SchedStep maxW n
        { idle := n - m - 1, waiting := 1, running := m, finished := 0 }
        { idle := n - m - 1, waiting := 0, running := m + 1, finished := 0 } :=
      SchedStep.acquire _ (by dsimp only; omega)
        (fun hu => absurd hu (by rw [hsem]; exact Bool.false_ne_true))
    have : n - m - 1 = n - (m + 1) := by omega
    rw [this] at st2
    exact Relation.ReflTransGen.tail (Relation.ReflTransGen.tail hr st1) st2

/-- C10: with a configured ceiling of at least 1 the number of
refinement loops in flight never exceeds it in any reachable state of
the parallel dispatch (below the task count the semaphore enforces it,
otherwise the task count itself does); and when the ceiling is zero or
at least the task count, the semaphore is bypassed and the state with
every loop in flight at once is reachable. -/
theorem mochi_c10_concurrency (maxW : Int) (nTasks : Nat) :
    (1 ≤ maxW → ∀ s : SchedState, SchedReach maxW nTasks s →
      inFlight s ≤ maxW.toNat) ∧
    ((maxW = 0 ∨ (nTasks : Int) ≤ maxW) →
      semUsed maxW nTasks = false ∧
      SchedReach maxW nTasks
        { idle := 0, waiting := 0, running := nTasks, finished := 0 }) := by
  constructor
  · intro hpos s hreach
    obtain ⟨htot, hsem⟩ := sched_inv maxW nTasks s hreach
    by_cases hu : semUsed maxW nTasks = true
    · exact hsem hu
    · have hb : ¬(0 < maxW ∧ maxW < (nTasks : Int)) := by
        intro hc
        exact hu (by unfold semUsed; simp [hc.1, hc.2])
      have hge : (nTasks : Int) ≤ maxW := by omega
      have hrun : inFlight s ≤ nTasks := by
        unfold inFlight
        unfold totalTasks at htot
        omega
      have : nTasks ≤ maxW.toNat := by omega
      omega
  · intro hby
    have hsem : semUsed maxW nTasks = false := by
      unfold semUsed
      rcases hby with rfl | hge
      · simp
      · simp
        intro h0
        omega
    exact ⟨hsem, sched_reach_all_running maxW nTasks hsem⟩

/-- C10 witness: the bound evaluated at the start state of a six-task
run with ceiling 2, and the bypass evaluated at ceiling 0 with three
tasks. -/
theorem mochi_c10_witness :
    inFlight { idle := 6, waiting := 0, running := 0, finished := 0 } ≤
      (2 : Int).toNat ∧
    semUsed 0 3 = false :=
  ⟨(mochi_c10_concurrency 2 6).1 (by decide) _ Relation.ReflTransGen.refl,
   ((mochi_c10_concurrency 0 3).2 (Or.inl rfl)).1⟩

end Mochi
